import Mathlib

/-!
Verification of the deepseek-ai-console core routines.

The two routines under study are:
* the streaming-chat accumulator in `src/components/ChatInterface.tsx`
  (`handleGenerate`, lines 71-96): a loop that decodes each transport chunk,
  splits it on newlines, and for every line starting with the literal
  `data: ` either skips the `[DONE]` sentinel, or parses the remainder as a
  JSON payload and appends the `choices[0].delta.content` fragment to a
  growing buffer, emitting the buffer after each append;
* the mask compositor in `src/components/ImageEditor.tsx`
  (`resizeImageIfNeeded`, lines 20-43, and the alpha loop of
  `removeBackground`, lines 84-91).

JavaScript strings are embedded as `List Char`, so that concatenation is
`List.append` and all operations compute by structural recursion.
-/

/-- A JavaScript string, embedded as its list of characters. -/
abbrev JSString := List Char

/-- The literal prefix `data: ` tested by `line.startsWith('data: ')`
(ChatInterface.tsx line 80); its length 6 is what `line.slice(6)` drops. -/
def dataTag : JSString := "data: ".toList

/-- The sentinel `[DONE]` compared against on ChatInterface.tsx line 82. -/
def doneSentinel : JSString := "[DONE]".toList

/-- Strip a leading literal from a string: `stripLeading p s = some r` iff
`s = p ++ r`.  This fuses the source's `line.startsWith('data: ')` test
with the subsequent `line.slice(6)` (ChatInterface.tsx lines 80-81). -/
def stripLeading : JSString → JSString → Option JSString
  | [], s => some s
  | _ :: _, [] => none
  | p :: ps, c :: cs => if c = p then stripLeading ps cs else none

/-- Scan the body of a JSON string literal (the part after the opening
quote): returns the decoded characters and the remainder after the closing
quote.  Handles the simple escapes; a payload using other escapes is
treated as unparseable by this model. -/
def jsonStringBody : List Char → Option (JSString × JSString)
  | [] => none
  | '"' :: rest => some ([], rest)
  | '\\' :: [] => none
  | '\\' :: e :: rest =>
    match (if e = '"' then some '"' else if e = '\\' then some '\\'
           else if e = '/' then some '/' else if e = 'n' then some '\n'
           else if e = 't' then some '\t' else if e = 'r' then some '\r'
           else none : Option Char) with
    | none => none
    | some d => (jsonStringBody rest).map (fun p => (d :: p.1, p.2))
  | c :: rest => (jsonStringBody rest).map (fun p => (c :: p.1, p.2))

/-- Opening part of the documented wire payload, up to and including the
opening quote of the `content` string. -/
def contentOpen : JSString := "\x7b\"choices\":[\x7b\"delta\":\x7b\"content\":\"".toList

/-- Closing part of the documented wire payload, after the closing quote of
the `content` string. -/
def contentClose : JSString := "\x7d\x7d]\x7d".toList

/-- Model of `JSON.parse(data)` followed by the access
`parsed.choices?.[0]?.delta?.content` (ChatInterface.tsx lines 85-86),
specialised to the documented wire shape
`{"choices":[{"delta":{"content": <string>}}]}` (spec section 6 requires
this exact shape).  Any other payload yields `none`, which is
buffer-equivalent to the source's behaviour both when `JSON.parse` throws
(the catch on line 91 skips the line) and when the parse succeeds but the
optional chain yields no string (the truthiness test on line 87 fails). -/
def extractContent (data : JSString) : Option JSString :=
  match stripLeading contentOpen data with
  | none => none
  | some rest =>
    match jsonStringBody rest with
    | none => none
    | some (body, rem) => if rem = contentClose then some body else none

/-- One iteration of the `for (const line of lines)` loop body
(ChatInterface.tsx lines 79-95), acting on the accumulated buffer
`fullResponse`.  A non-`data: ` line is ignored; `[DONE]` hits `continue`;
an unparseable payload is skipped by the empty catch; an empty `content`
fails the truthiness test `if (content)`; otherwise the fragment is
appended. -/
def processLine (buffer line : JSString) : JSString :=
  match stripLeading dataTag line with
  | none => buffer
  | some data =>
    if data = doneSentinel then buffer
    else match extractContent data with
      | some content => if content = [] then buffer else buffer ++ content
      | none => buffer

/-- Model of JavaScript's `chunk.split('\n')` (ChatInterface.tsx line 77):
splits at every newline, keeping empty pieces, and yields `[""]` on the
empty string. -/
def splitLines : JSString → List JSString
  | [] => [[]]
  | c :: cs =>
    if c = '\n' then [] :: splitLines cs
    else
      match splitLines cs with
      | [] => [[c]]
      | l :: ls => (c :: l) :: ls

/-- Processing of one decoded chunk (ChatInterface.tsx lines 76-95): split
on newlines and run the line loop over the pieces.  Note the source keeps
no carry-over between chunks: a line straddling a chunk boundary is split
into two pieces that are processed independently. -/
def processChunk (buffer chunk : JSString) : JSString :=
  (splitLines chunk).foldl processLine buffer

/-- The whole read loop of `handleGenerate` (ChatInterface.tsx lines
71-96) on a given sequence of decoded chunks, starting from the empty
`fullResponse`. -/
def processChunks (chunks : List JSString) : JSString :=
  chunks.foldl processChunk []

/-- The fragment a single line contributes to the buffer, if any: the
specification-side description of `processLine`. -/
def lineFragment (line : JSString) : Option JSString :=
  match stripLeading dataTag line with
  | none => none
  | some data =>
    if data = doneSentinel then none
    else match extractContent data with
      | some content => if content = [] then none else some content
      | none => none

/-- The fragments contributed by one chunk, in order. -/
def chunkFragments (chunk : JSString) : List JSString :=
  (splitLines chunk).filterMap lineFragment

/-- The fragments contributed by a chunk sequence, in arrival order. -/
def streamFragments (chunks : List JSString) : List JSString :=
  (chunks.map chunkFragments).flatten

/-- The line loop again, this time also recording every `setResponse`
emission (ChatInterface.tsx line 89): each successful append emits the new
buffer.  State is `(fullResponse, emissions so far)`. -/
def processLineEmit (st : JSString × List JSString) (line : JSString) :
    JSString × List JSString :=
  match stripLeading dataTag line with
  | none => st
  | some data =>
    if data = doneSentinel then st
    else match extractContent data with
      | some content =>
        if content = [] then st
        else (st.1 ++ content, st.2 ++ [st.1 ++ content])
      | none => st

/-- One chunk with emissions recorded. -/
def processChunkEmit (st : JSString × List JSString) (chunk : JSString) :
    JSString × List JSString :=
  (splitLines chunk).foldl processLineEmit st

/-- The whole read loop with emissions recorded, from the empty buffer. -/
def processChunksEmit (chunks : List JSString) : JSString × List JSString :=
  chunks.foldl processChunkEmit ([], [])

/-- The buffer snapshots emitted while appending the fragments `frs` to a
buffer that currently holds `buf`: the specification-side description of
the emission trace. -/
def emissionsOf (buf : JSString) : List JSString → List JSString
  | [] => []
  | c :: cs => (buf ++ c) :: emissionsOf (buf ++ c) cs

/-- One `reader.read()` outcome (ChatInterface.tsx line 73): a decoded
chunk, or a rejection that throws out of the loop.  End-of-stream
(`done`) is the end of the event list. -/
inductive ReadEvent : Type
  | chunk (s : JSString) : ReadEvent
  | failure : ReadEvent

/-- The fixed string `setResponse` receives in the catch block
(ChatInterface.tsx line 102). -/
def errorResponse : JSString :=
  "Error: Failed to generate response. Please check your API key and try again.".toList

/-- The try/catch around the read loop (ChatInterface.tsx lines 42-105) on
a given event sequence.  Returns (final visible `response` state, all
`setResponse` emissions after the initial reset, number of errors
surfaced via toast).  While streaming, the visible response equals the
internal buffer, since every append immediately emits; a read failure
throws to the catch, which surfaces one error toast and overwrites the
visible response with `errorResponse`, processing no further events. -/
def runStream (st : JSString × List JSString) :
    List ReadEvent → JSString × List JSString × Nat
  | [] => (st.1, st.2, 0)
  | ReadEvent.chunk c :: rest => runStream (processChunkEmit st c) rest
  | ReadEvent.failure :: _ => (errorResponse, st.2 ++ [errorResponse], 1)

/-!
Embedding of the mask compositor and resize policy
(`src/components/ImageEditor.tsx`).

Pixel buffers (`Uint8ClampedArray` contents) are embedded as `List Nat`
of byte values; mask scores (`result[0].mask.data[i]`, floats in [0,1])
are embedded as rationals, so `Math.round` is exact round-half-up.
-/

/-- `Math.round` on a rational in the range of interest: round half up,
`⌊q + 1/2⌋` (ImageEditor.tsx line 87 applies it to `(1 - mask[i]) * 255`,
which lies in `[0, 255]` for mask scores in `[0, 1]`). -/
def jsRound (q : ℚ) : ℤ := ⌊q + 1 / 2⌋

/-- `Math.round((1 - m) * 255)` (ImageEditor.tsx line 87) computed
directly on the normalized numerator/denominator of the score, so that it
evaluates by kernel reduction: for `m = n / d` with `d > 0`,
`⌊(1 - m) * 255 + 1/2⌋ = (510 * (d - n) + d) / (2 * d)` in integer floor
division.  `roundAlpha_eq` below proves this equal to the
`jsRound ((1 - m) * 255)` of the source text. -/
def roundAlpha (m : ℚ) : ℤ :=
  (510 * ((m.den : ℤ) - m.num) + m.den) / (2 * (m.den : ℤ))

/-- `roundAlpha` is exactly `Math.round((1 - m) * 255)`. -/
theorem roundAlpha_eq (m : ℚ) : roundAlpha m = jsRound ((1 - m) * 255) := by
  have h1 : roundAlpha m = (510 * ((m.den : ℤ) - m.num) + m.den) / ((2 * m.den : ℕ) : ℤ) := by
    rw [roundAlpha]; push_cast; ring_nf
  have h2 : ((510 * ((m.den : ℤ) - m.num) + m.den : ℤ) : ℚ) / ((2 * m.den : ℕ) : ℚ)
      = (1 - m) * 255 + 1 / 2 := by
    have hd : (m.den : ℚ) ≠ 0 := Nat.cast_ne_zero.mpr m.den_nz
    rw [show ((1 : ℚ) - m) * 255 + 1 / 2 = (1 - (m.num : ℚ) / (m.den : ℚ)) * 255 + 1 / 2 by
      rw [Rat.num_div_den m]]
    field_simp
    ring
  rw [jsRound, h1, ← Rat.floor_intCast_div_natCast, h2]

/-- Storing an integer into a `Uint8ClampedArray` cell clamps it to the
byte range `[0, 255]`. -/
def clampByte (z : ℤ) : ℕ := (max 0 (min 255 z)).toNat

/-- The alpha loop of `removeBackground` (ImageEditor.tsx lines 86-89):
for `i` ranging over the mask, write
`Math.round((1 - mask[i]) * 255)` into byte `i * 4 + 3` of the pixel
buffer.  `List.set` past the end of the list is a no-op, exactly as an
out-of-range store into a `Uint8ClampedArray` is; no byte other than the
alpha bytes is ever written. -/
def applyMask : List ℕ → ℕ → List ℚ → List ℕ
  | data, _, [] => data
  | data, i, m :: ms =>
    applyMask (data.set (i * 4 + 3) (clampByte (roundAlpha m))) (i + 1) ms

/-- A decoded raster (`ImageData`): width, height and an RGBA byte buffer
of length `width * height * 4` (spec section 3 invariant). -/
structure RasterImage : Type where
  width : ℕ
  height : ℕ
  data : List ℕ
  size_eq : data.length = width * height * 4

/-- `applyMask` never changes the buffer length. -/
theorem applyMask_length (ms : List ℚ) :
    ∀ (data : List ℕ) (i : ℕ), (applyMask data i ms).length = data.length := by
  induction ms with
  | nil => intro data i; rfl
  | cons m ms ih =>
    intro data i
    simp [applyMask, ih]

/-- The mask-application stage of `removeBackground` (ImageEditor.tsx
lines 79-91): copy the source pixels (`outputCtx.drawImage` /
`getImageData`) and run the alpha loop over them.  The source performs no
shape check between the mask and the pixel buffer. -/
def maskComposite (img : RasterImage) (mask : List ℚ) : RasterImage :=
  { width := img.width
    height := img.height
    data := applyMask img.data 0 mask
    size_eq := by rw [applyMask_length]; exact img.size_eq }

/-- The pixel-level slice of `removeBackground` (ImageEditor.tsx lines
45-112) as seen by its caller: `Option` is the promise's reject channel.
Every rejection in the source comes from an external collaborator (canvas
context creation, the segmentation pipeline, blob encoding); the embedded
mask-compositing computation itself performs no validation — in
particular no mask/image shape check — and always succeeds. -/
def removeBackground (img : RasterImage) (mask : List ℚ) : Option RasterImage :=
  some (maskComposite img mask)

/-- `MAX_IMAGE_DIMENSION` (ImageEditor.tsx line 13). -/
def MAX_IMAGE_DIMENSION : ℕ := 1024

/-- `Math.round(a / b)` for natural `a` and positive natural `b`, with the
quotient taken exactly: round half up, computed as `(2a + b) / (2b)` in
integer division (for `b > 0` this equals `⌊a/b + 1/2⌋`). -/
def roundDiv (a b : ℕ) : ℕ := (2 * a + b) / (2 * b)

/-- The dimension mapping of `resizeImageIfNeeded` (ImageEditor.tsx lines
20-43): if either dimension exceeds `MAX_IMAGE_DIMENSION`, the branch on
`width > height` pins the larger dimension to the bound and rounds the
other one down by the same ratio; otherwise the dimensions pass through
unchanged. -/
def resizeDims (width height : ℕ) : ℕ × ℕ :=
  if MAX_IMAGE_DIMENSION < width ∨ MAX_IMAGE_DIMENSION < height then
    if height < width then
      (MAX_IMAGE_DIMENSION, roundDiv (height * MAX_IMAGE_DIMENSION) width)
    else
      (roundDiv (width * MAX_IMAGE_DIMENSION) height, MAX_IMAGE_DIMENSION)
  else (width, height)

/-!
Lemmas about the streaming accumulator.
-/

theorem stripLeading_self_append (p : JSString) :
    ∀ r, stripLeading p (p ++ r) = some r := by
  induction p with
  | nil => intro r; rfl
  | cons c cs ih => intro r; simp [stripLeading, ih]

/-- `processLine` appends exactly the fragment `lineFragment` describes. -/
theorem processLine_eq (buffer line : JSString) :
    processLine buffer line = buffer ++ (lineFragment line).getD [] := by
  unfold processLine lineFragment
  cases stripLeading dataTag line with
  | none => simp
  | some data =>
    by_cases hd : data = doneSentinel
    · simp [hd]
    · cases hext : extractContent data with
      | none => simp [hd, hext]
      | some content =>
        by_cases hc : content = []
        · simp [hd, hext, hc]
        · simp [hd, hext, hc]

/-- `processLineEmit` acts according to the fragment `lineFragment`
describes: nothing, or append-and-emit. -/
theorem processLineEmit_eq (st : JSString × List JSString) (line : JSString) :
    processLineEmit st line =
      match lineFragment line with
      | none => st
      | some c => (st.1 ++ c, st.2 ++ [st.1 ++ c]) := by
  unfold processLineEmit lineFragment
  cases stripLeading dataTag line with
  | none => rfl
  | some data =>
    by_cases hd : data = doneSentinel
    · simp [hd]
    · cases hext : extractContent data with
      | none => simp [hd, hext]
      | some content =>
        by_cases hc : content = []
        · simp [hd, hext, hc]
        · simp [hd, hext, hc]

/-- The line loop over any list of lines: the buffer grows by the
concatenation of the extracted fragments, and one snapshot is emitted per
fragment. -/
theorem foldl_processLineEmit (lines : List JSString) :
    ∀ (buf : JSString) (out : List JSString),
      lines.foldl processLineEmit (buf, out) =
        (buf ++ (lines.filterMap lineFragment).flatten,
         out ++ emissionsOf buf (lines.filterMap lineFragment)) := by
  induction lines with
  | nil => intro buf out; simp [emissionsOf]
  | cons line rest ih =>
    intro buf out
    rw [List.foldl_cons, processLineEmit_eq]
    cases hl : lineFragment line with
    | none => simp only [List.filterMap_cons, hl, ih]
    | some c =>
      simp only [List.filterMap_cons, hl, ih, emissionsOf]
      simp [List.append_assoc]

/-- Appending fragment lists splits the emission trace accordingly. -/
theorem emissionsOf_append (f1 : List JSString) :
    ∀ (buf : JSString) (f2 : List JSString),
      emissionsOf buf (f1 ++ f2) =
        emissionsOf buf f1 ++ emissionsOf (buf ++ f1.flatten) f2 := by
  induction f1 with
  | nil => intro buf f2; simp [emissionsOf]
  | cons c cs ih =>
    intro buf f2
    show (buf ++ c) :: emissionsOf (buf ++ c) (cs ++ f2) = _
    rw [ih]
    simp [emissionsOf, List.append_assoc]

/-- One chunk of the emitting loop, described by its fragments. -/
theorem processChunkEmit_eq (st : JSString × List JSString) (chunk : JSString) :
    processChunkEmit st chunk =
      (st.1 ++ (chunkFragments chunk).flatten,
       st.2 ++ emissionsOf st.1 (chunkFragments chunk)) := by
  rw [processChunkEmit, chunkFragments, ← foldl_processLineEmit]

/-- The whole emitting read loop, described by the stream's fragments. -/
theorem foldl_processChunkEmit (chunks : List JSString) :
    ∀ (buf : JSString) (out : List JSString),
      chunks.foldl processChunkEmit (buf, out) =
        (buf ++ (streamFragments chunks).flatten,
         out ++ emissionsOf buf (streamFragments chunks)) := by
  induction chunks with
  | nil => intro buf out; simp [streamFragments, emissionsOf]
  | cons c rest ih =>
    intro buf out
    rw [List.foldl_cons, processChunkEmit_eq, ih]
    simp [streamFragments, emissionsOf_append, List.append_assoc]

/-- The buffer of the emitting loop from the empty start state. -/
theorem processChunksEmit_eq (chunks : List JSString) :
    processChunksEmit chunks =
      ((streamFragments chunks).flatten, emissionsOf [] (streamFragments chunks)) := by
  rw [processChunksEmit, foldl_processChunkEmit]; simp

/-- Every snapshot in an emission trace extends the starting buffer. -/
theorem emissionsOf_mem {x : JSString} :
    ∀ {F : List JSString} {buf : JSString}, x ∈ emissionsOf buf F → ∃ t, x = buf ++ t := by
  intro F
  induction F with
  | nil => intro buf h; simp [emissionsOf] at h
  | cons c cs ih =>
    intro buf h
    rw [emissionsOf, List.mem_cons] at h
    rcases h with h | h
    · exact ⟨c, h⟩
    · obtain ⟨t, rfl⟩ := ih h
      exact ⟨c ++ t, by simp [List.append_assoc]⟩

/-- Snapshots in an emission trace grow monotonically: each is a prefix
of every later one. -/
theorem emissionsOf_pairwise (F : List JSString) :
    ∀ buf : JSString, (emissionsOf buf F).Pairwise (fun a b => ∃ t, b = a ++ t) := by
  induction F with
  | nil => intro buf; simp [emissionsOf]
  | cons c cs ih =>
    intro buf
    rw [emissionsOf]
    refine List.Pairwise.cons ?_ (ih (buf ++ c))
    intro b hb
    obtain ⟨t, rfl⟩ := emissionsOf_mem hb
    exact ⟨t, rfl⟩

/-- The buffer-only loop agrees with the emitting loop. -/
theorem foldl_processLine_eq (lines : List JSString) :
    ∀ buf : JSString,
      lines.foldl processLine buf = buf ++ (lines.filterMap lineFragment).flatten := by
  induction lines with
  | nil => intro buf; simp
  | cons line rest ih =>
    intro buf
    rw [List.foldl_cons, processLine_eq]
    cases hl : lineFragment line with
    | none => simp [List.filterMap_cons, hl, ih]
    | some c => simp [List.filterMap_cons, hl, ih, List.append_assoc]

/-- The final buffer of the read loop is the concatenation of all
extracted fragments, in arrival order. -/
theorem processChunks_eq (chunks : List JSString) :
    processChunks chunks = (streamFragments chunks).flatten := by
  have h : ∀ (buf : JSString),
      chunks.foldl processChunk buf = buf ++ (streamFragments chunks).flatten := by
    induction chunks with
    | nil => intro buf; simp [streamFragments]
    | cons c rest ih =>
      intro buf
      rw [List.foldl_cons, processChunk, foldl_processLine_eq, ih]
      simp [streamFragments, chunkFragments, List.append_assoc]
  rw [processChunks, h]; simp

/-- `split` always yields at least one piece. -/
theorem splitLines_ne_nil (s : JSString) : splitLines s ≠ [] := by
  induction s with
  | nil => simp [splitLines]
  | cons c cs ih =>
    simp only [splitLines]
    split
    · simp
    · cases h : splitLines cs with
      | nil => simp
      | cons l ls => simp

/-- Splitting distributes over a newline: the pieces of `a ++ '\n' :: b`
are the pieces of `a` followed by the pieces of `b`. -/
theorem splitLines_append_newline (a : JSString) :
    ∀ b : JSString, splitLines (a ++ '\n' :: b) = splitLines a ++ splitLines b := by
  induction a with
  | nil => intro b; simp [splitLines]
  | cons c a ih =>
    intro b
    by_cases hc : c = '\n'
    · subst hc
      simp [splitLines, ih]
    · simp only [List.cons_append, splitLines, if_neg hc, List.append_eq]
      cases h : splitLines a with
      | nil => exact absurd h (splitLines_ne_nil a)
      | cons l ls => rw [ih b, h]; simp

/-- The empty line contributes nothing: it does not start with `data: `. -/
theorem processLine_nil (buf : JSString) : processLine buf [] = buf := by
  have h : stripLeading dataTag [] = none := by decide
  rw [processLine, h]

/-- A chunk ending in a newline composes: processing `a ++ '\n' :: b` is
processing `a ++ "\n"` and then `b`. -/
theorem processChunk_newline (buf a b : JSString) :
    processChunk buf (a ++ '\n' :: b) = processChunk (processChunk buf (a ++ ['\n'])) b := by
  have h1 : processChunk buf (a ++ ['\n']) = (splitLines a).foldl processLine buf := by
    rw [processChunk]
    rw [show a ++ ['\n'] = a ++ '\n' :: ([] : JSString) from rfl]
    rw [splitLines_append_newline]
    rw [List.foldl_append]
    show processLine ((splitLines a).foldl processLine buf) [] = _
    rw [processLine_nil]
  rw [processChunk, splitLines_append_newline, List.foldl_append, ← h1]
  rfl

/-- When every chunk ends with a newline, the chunk loop is the same as
processing the whole byte stream as one chunk. -/
theorem processChunks_flatten (chunks : List JSString)
    (h : ∀ c ∈ chunks, ∃ d, c = d ++ ['\n']) :
    processChunks chunks = processChunk [] chunks.flatten := by
  have key : ∀ (cks : List JSString), (∀ c ∈ cks, ∃ d, c = d ++ ['\n']) →
      ∀ buf : JSString, cks.foldl processChunk buf = processChunk buf cks.flatten := by
    intro cks
    induction cks with
    | nil =>
      intro _ buf
      show buf = processLine buf []
      rw [processLine_nil]
    | cons c rest ih =>
      intro hall buf
      obtain ⟨d, rfl⟩ := hall c (List.mem_cons_self c rest)
      rw [List.foldl_cons, List.flatten_cons,
        show (d ++ ['\n']) ++ rest.flatten = d ++ '\n' :: rest.flatten by simp,
        processChunk_newline buf d rest.flatten]
      exact ih (fun x hx => hall x (List.mem_cons_of_mem _ hx)) _
  exact key chunks h []

/-- Consuming a run of successful chunk reads. -/
theorem runStream_chunks (cs : List JSString) :
    ∀ (st : JSString × List JSString) (rest : List ReadEvent),
      runStream st (cs.map ReadEvent.chunk ++ rest) =
        runStream (cs.foldl processChunkEmit st) rest := by
  induction cs with
  | nil => intro st rest; rfl
  | cons c cs ih => intro st rest; exact ih (processChunkEmit st c) rest

/-!
Concrete stream material (the worked example of spec section 8).
-/

/-- `data: {"choices":[{"delta":{"content":"Hel"}}]}` plus newline. -/
def exChunk1 : JSString :=
  "data: \x7b\"choices\":[\x7b\"delta\":\x7b\"content\":\"Hel\"\x7d\x7d]\x7d\n".toList

/-- `data: {"choices":[{"delta":{"content":"lo"}}]}` plus newline. -/
def exChunk2 : JSString :=
  "data: \x7b\"choices\":[\x7b\"delta\":\x7b\"content\":\"lo\"\x7d\x7d]\x7d\n".toList

/-- `data: [DONE]` plus newline. -/
def exChunk3 : JSString := "data: [DONE]\n".toList

/-- The byte stream of `exChunk1` delivered in two pieces, cut in the
middle of the JSON payload. -/
def exSplitChunks : List JSString :=
  ["data: \x7b\"cho".toList,
   "ices\":[\x7b\"delta\":\x7b\"content\":\"Hel\"\x7d\x7d]\x7d\n".toList]

/-- A chunk whose `[DONE]` line is followed by a further content line
carrying `X`. -/
def doneThenContent : JSString :=
  "data: [DONE]\ndata: \x7b\"choices\":[\x7b\"delta\":\x7b\"content\":\"X\"\x7d\x7d]\x7d\n".toList

/-- C1: for every chunk sequence whose well-formed `data: ` lines carry
the content fragments `cs` (each line wholly contained in one chunk, as
the per-chunk split of the source defines the lines), the buffer after the
loop is the concatenation of `cs` in arrival order — no successfully
parsed fragment is dropped — and the emitted snapshots grow monotonically:
each is a prefix of every later one. -/
theorem c1_buffer_is_ordered_concat (chunks cs : List JSString)
    (hcs : streamFragments chunks = cs) :
    (processChunksEmit chunks).1 = cs.flatten ∧
    (processChunksEmit chunks).2.Pairwise (fun a b => ∃ t, b = a ++ t) := by
  subst hcs
  rw [processChunksEmit_eq]
  exact ⟨rfl, emissionsOf_pairwise _ []⟩

/-- Witness for C1 at the spec section 8 example: fragments `Hel`, `lo`,
final buffer `Hello`. -/
theorem c1_buffer_is_ordered_concat_witness :
    (processChunksEmit [exChunk1, exChunk2, exChunk3]).1 =
      (["Hel".toList, "lo".toList] : List JSString).flatten ∧
    (processChunksEmit [exChunk1, exChunk2, exChunk3]).2.Pairwise
      (fun a b => ∃ t, b = a ++ t) :=
  c1_buffer_is_ordered_concat [exChunk1, exChunk2, exChunk3]
    ["Hel".toList, "lo".toList] (by decide)

/-- C2 is false of the code: the same byte stream, delivered once as a
whole line and once cut mid-payload, yields different final buffers
(`Hel` versus the empty buffer), because the source splits each chunk on
newlines independently and keeps no carry-over across chunk boundaries. -/
theorem c2_chunking_counterexample :
    ([exChunk1] : List JSString).flatten = exSplitChunks.flatten ∧
    processChunks [exChunk1] ≠ processChunks exSplitChunks := by decide

/-- C2 amended: chunking invariance does hold whenever the chunk
boundaries fall on line boundaries — if every chunk of both deliveries
ends with a newline and the two byte streams agree, the final buffers
agree. -/
theorem c2_line_aligned_chunking_invariance (A B : List JSString)
    (hA : ∀ c ∈ A, ∃ d, c = d ++ ['\n'])
    (hB : ∀ c ∈ B, ∃ d, c = d ++ ['\n'])
    (hfl : A.flatten = B.flatten) :
    processChunks A = processChunks B := by
  rw [processChunks_flatten A hA, processChunks_flatten B hB, hfl]

/-- Witness for the amended C2: one chunk holding two lines versus two
single-line chunks. -/
theorem c2_line_aligned_chunking_invariance_witness :
    processChunks [exChunk1 ++ exChunk2] = processChunks [exChunk1, exChunk2] :=
  c2_line_aligned_chunking_invariance [exChunk1 ++ exChunk2] [exChunk1, exChunk2]
    (by
      intro c hc
      rw [List.mem_singleton] at hc
      subst hc
      exact ⟨(exChunk1 ++ exChunk2).dropLast, by decide⟩)
    (by
      intro c hc
      rw [List.mem_cons, List.mem_singleton] at hc
      rcases hc with hc | hc <;> subst hc
      · exact ⟨exChunk1.dropLast, by decide⟩
      · exact ⟨exChunk2.dropLast, by decide⟩)
    (by decide)

/-- C4 is false of the code: `data: [DONE]` hits `continue`, not `break`,
so collection does not stop — in a stream whose only content line comes
after the `[DONE]` line, that fragment is still appended (final buffer
`X`, where the claim requires the empty buffer). -/
theorem c4_done_counterexample :
    processChunks [doneThenContent] = ['X'] ∧ processChunks [doneThenContent] ≠ [] := by
  decide

/-- C4 amended: a `data: [DONE]` line leaves the buffer unchanged and is
itself skipped, but it does not stop collection: the loop continues, and
the remaining lines are processed exactly as if the `[DONE]` line were
absent. -/
theorem c4_done_skips_line_only (buf : JSString) (ls : List JSString) :
    processLine buf (dataTag ++ doneSentinel) = buf ∧
    ((dataTag ++ doneSentinel) :: ls).foldl processLine buf = ls.foldl processLine buf := by
  have h : processLine buf (dataTag ++ doneSentinel) = buf := by
    rw [processLine, stripLeading_self_append]
    simp
  exact ⟨h, by rw [List.foldl_cons, h]⟩

/-- C6 is false of the code in its preservation part: after a read
failure, the visible response is the fixed error message of the catch
block, not the text accumulated before the failure. -/
theorem c6_error_overwrites_counterexample :
    (runStream ([], []) [ReadEvent.chunk exChunk1, ReadEvent.failure]).1 = errorResponse ∧
    (runStream ([], []) [ReadEvent.chunk exChunk1, ReadEvent.failure]).1 ≠
      (streamFragments [exChunk1]).flatten := by decide

/-- C6 amended: a transport failure aborts the loop (no later event is
processed), surfaces exactly one terminal error, and overwrites the
visible response with the fixed error message; the partial text survives
only in the earlier emission trace, not in the final visible response. -/
theorem c6_failure_aborts_and_overwrites (chunks : List JSString) (rest : List ReadEvent) :
    runStream ([], []) (chunks.map ReadEvent.chunk ++ ReadEvent.failure :: rest) =
      (errorResponse, emissionsOf [] (streamFragments chunks) ++ [errorResponse], 1) := by
  rw [runStream_chunks]
  show (errorResponse, (chunks.foldl processChunkEmit ([], [])).2 ++ [errorResponse], 1) = _
  rw [foldl_processChunkEmit]
  simp

/-- C8: a line that begins with `data: ` whose remainder is neither the
sentinel nor an extractable payload is skipped: the state (buffer and
emissions) is unchanged and the loop proceeds to the following lines as if
the line were absent; no error escapes (the model is total). -/
theorem c8_invalid_json_skipped (buf : JSString) (out : List JSString)
    (data : JSString) (rest : List JSString)
    (hdone : data ≠ doneSentinel)
    (hjson : extractContent data = none) :
    processLineEmit (buf, out) (dataTag ++ data) = (buf, out) ∧
    ((dataTag ++ data) :: rest).foldl processLine buf = rest.foldl processLine buf := by
  have hfrag : lineFragment (dataTag ++ data) = none := by
    rw [lineFragment, stripLeading_self_append]
    simp [hdone, hjson]
  constructor
  · rw [processLineEmit_eq, hfrag]
  · rw [List.foldl_cons, processLine_eq, hfrag]
    simp

/-- Witness for C8 at the malformed payload `{"cho` (a mid-line chunk
cut): state unchanged, loop continues. -/
theorem c8_invalid_json_skipped_witness :
    processLineEmit (['a'], [['a']]) (dataTag ++ "\x7b\"cho".toList) = (['a'], [['a']]) ∧
    ((dataTag ++ "\x7b\"cho".toList) :: [exChunk3]).foldl processLine ['a'] =
      ([exChunk3] : List JSString).foldl processLine ['a'] :=
  c8_invalid_json_skipped ['a'] [['a']] ("\x7b\"cho".toList) [exChunk3]
    (by decide) (by decide)

/-!
Lemmas about the mask compositor.
-/

/-- Bytes that are not among the targeted alpha positions are never
written by the loop. -/
theorem applyMask_getElem?_untouched (ms : List ℚ) :
    ∀ (data : List ℕ) (k j : ℕ), (∀ i < ms.length, j ≠ (k + i) * 4 + 3) →
      (applyMask data k ms)[j]? = data[j]? := by
  induction ms with
  | nil => intro data k j _; rfl
  | cons m ms ih =>
    intro data k j hj
    have h0 : j ≠ k * 4 + 3 := by
      have := hj 0 (by simp)
      simpa using this
    have hrest : ∀ i < ms.length, j ≠ ((k + 1) + i) * 4 + 3 := by
      intro i hi
      have := hj (i + 1) (by simpa using hi)
      have e : k + (i + 1) = (k + 1) + i := by omega
      rwa [e] at this
    show (applyMask (data.set (k * 4 + 3) (clampByte (roundAlpha m))) (k + 1) ms)[j]? = data[j]?
    rw [ih _ (k + 1) j hrest, List.getElem?_set_ne (Ne.symm h0)]

/-- The alpha byte of pixel `k + i` after the loop, for `i` within the
mask and the byte within the buffer. -/
theorem applyMask_getElem?_hit (ms : List ℚ) :
    ∀ (data : List ℕ) (k i : ℕ), i < ms.length → (k + i) * 4 + 3 < data.length →
      (applyMask data k ms)[(k + i) * 4 + 3]? =
        some (clampByte (roundAlpha (ms.getD i 0))) := by
  induction ms with
  | nil => intro data k i hi _; exact absurd hi (by simp)
  | cons m ms ih =>
    intro data k i hi hlen
    cases i with
    | zero =>
      show (applyMask (data.set (k * 4 + 3) (clampByte (roundAlpha m))) (k + 1) ms)[(k + 0) * 4 + 3]? = _
      rw [applyMask_getElem?_untouched ms _ (k + 1) _ (by intro i' _; omega)]
      simp only [Nat.add_zero]
      rw [List.getElem?_set_self (by simpa using hlen)]
      simp
    | succ i' =>
      have e : k + (i' + 1) = (k + 1) + i' := by omega
      show (applyMask (data.set (k * 4 + 3) (clampByte (roundAlpha m))) (k + 1) ms)[(k + (i' + 1)) * 4 + 3]? = _
      rw [e]
      rw [ih _ (k + 1) i' (by simpa using hi)
        (by rw [List.length_set]; rw [← e] at *; omega)]
      simp

/-- Clamping is the identity on values already in the byte range. -/
theorem clampByte_of_mem {z : ℤ} (h0 : 0 ≤ z) (h255 : z ≤ 255) : clampByte z = z.toNat := by
  rw [clampByte, min_eq_right h255, max_eq_right h0]

/-- For a mask score in `[0, 1]`, the rounded alpha lies in `[0, 255]`. -/
theorem jsRound_alpha_mem {m : ℚ} (h0 : 0 ≤ m) (h1 : m ≤ 1) :
    0 ≤ jsRound ((1 - m) * 255) ∧ jsRound ((1 - m) * 255) ≤ 255 := by
  constructor
  · rw [jsRound]
    apply Int.floor_nonneg.mpr
    nlinarith
  · rw [jsRound]
    have hlt : (1 - m) * 255 + 1 / 2 < ((256 : ℤ) : ℚ) := by push_cast; nlinarith
    have := Int.floor_lt.mpr hlt; omega

/-- Mask score `0` rounds to alpha `255`. -/
theorem jsRound_alpha_zero : jsRound ((1 - 0) * 255) = 255 := by
  rw [jsRound, Int.floor_eq_iff]
  norm_num

/-- Mask score `1` rounds to alpha `0`. -/
theorem jsRound_alpha_one : jsRound ((1 - 1) * 255) = 0 := by
  rw [jsRound, Int.floor_eq_iff]
  norm_num

/-- Mask score `1/2` rounds to alpha `128` (round half up). -/
theorem jsRound_alpha_half : jsRound ((1 - 1 / 2) * 255) = 128 := by
  rw [jsRound, Int.floor_eq_iff]
  norm_num

/-- A 1-by-1 test raster (one RGBA pixel). -/
def exImg : RasterImage := ⟨1, 1, [10, 20, 30, 40], by decide⟩

/-- A 2-by-1 test raster (two RGBA pixels). -/
def exImgWide : RasterImage := ⟨2, 1, [10, 20, 30, 40, 50, 60, 70, 80], by decide⟩

/-- A mask that is too long for `exImg`. -/
def exMask : List ℚ := [mkRat 0 1, mkRat 1 2]

/-- C3: for a matching-length mask with scores in `[0, 1]`, every output
alpha byte is `round((1 - mask[i]) * 255)` under round half up, every RGB
byte is unchanged, and in particular score `0` gives alpha `255`, score
`1` gives alpha `0`, and score `1/2` gives alpha `128`. -/
theorem c3_alpha_formula_rgb_preserved (img : RasterImage) (mask : List ℚ)
    (hlen : mask.length = img.width * img.height)
    (hrange : ∀ m ∈ mask, 0 ≤ m ∧ m ≤ 1) :
    (∀ i < mask.length,
        (maskComposite img mask).data[i * 4 + 3]? =
          some (jsRound ((1 - mask.getD i 0) * 255)).toNat) ∧
    (∀ i < mask.length, ∀ c < 3,
        (maskComposite img mask).data[i * 4 + c]? = img.data[i * 4 + c]?) ∧
    (∀ i < mask.length, mask.getD i 0 = 0 →
        (maskComposite img mask).data[i * 4 + 3]? = some 255) ∧
    (∀ i < mask.length, mask.getD i 0 = 1 →
        (maskComposite img mask).data[i * 4 + 3]? = some 0) ∧
    (∀ i < mask.length, mask.getD i 0 = 1 / 2 →
        (maskComposite img mask).data[i * 4 + 3]? = some 128) := by
  have hmem : ∀ i, i < mask.length → mask.getD i 0 ∈ mask := by
    intro i hi
    have h : mask.getD i 0 = mask[i] := by
      rw [List.getD_eq_getElem?_getD, List.getElem?_eq_getElem hi]; rfl
    rw [h]
    exact List.getElem_mem hi
  have halpha : ∀ i < mask.length,
      (maskComposite img mask).data[i * 4 + 3]? =
        some (jsRound ((1 - mask.getD i 0) * 255)).toNat := by
    intro i hi
    have hiwh : i < img.width * img.height := hlen ▸ hi
    have hbound : (0 + i) * 4 + 3 < img.data.length := by
      rw [img.size_eq, Nat.zero_add]; omega
    have hhit := applyMask_getElem?_hit mask img.data 0 i hi hbound
    show (applyMask img.data 0 mask)[i * 4 + 3]? = _
    rw [show i * 4 + 3 = (0 + i) * 4 + 3 by omega, hhit]
    obtain ⟨hr0, hr1⟩ := hrange _ (hmem i hi)
    obtain ⟨hj0, hj255⟩ := jsRound_alpha_mem hr0 hr1
    rw [roundAlpha_eq, clampByte_of_mem hj0 hj255]
  refine ⟨halpha, ?_, ?_, ?_, ?_⟩
  · intro i hi c hc
    show (applyMask img.data 0 mask)[i * 4 + c]? = _
    apply applyMask_getElem?_untouched
    intro i' _
    omega
  · intro i hi hm
    rw [halpha i hi, hm, jsRound_alpha_zero]; rfl
  · intro i hi hm
    rw [halpha i hi, hm, jsRound_alpha_one]; rfl
  · intro i hi hm
    rw [halpha i hi, hm, jsRound_alpha_half]; rfl

/-- Witness for C3 on a one-pixel image and the mask `[1/2]`. -/
theorem c3_alpha_formula_rgb_preserved_witness :
    (∀ i < ([mkRat 1 2] : List ℚ).length,
        (maskComposite exImg [mkRat 1 2]).data[i * 4 + 3]? =
          some (jsRound ((1 - ([mkRat 1 2] : List ℚ).getD i 0) * 255)).toNat) ∧
    (∀ i < ([mkRat 1 2] : List ℚ).length, ∀ c < 3,
        (maskComposite exImg [mkRat 1 2]).data[i * 4 + c]? = exImg.data[i * 4 + c]?) ∧
    (∀ i < ([mkRat 1 2] : List ℚ).length, ([mkRat 1 2] : List ℚ).getD i 0 = 0 →
        (maskComposite exImg [mkRat 1 2]).data[i * 4 + 3]? = some 255) ∧
    (∀ i < ([mkRat 1 2] : List ℚ).length, ([mkRat 1 2] : List ℚ).getD i 0 = 1 →
        (maskComposite exImg [mkRat 1 2]).data[i * 4 + 3]? = some 0) ∧
    (∀ i < ([mkRat 1 2] : List ℚ).length, ([mkRat 1 2] : List ℚ).getD i 0 = 1 / 2 →
        (maskComposite exImg [mkRat 1 2]).data[i * 4 + 3]? = some 128) :=
  c3_alpha_formula_rgb_preserved exImg [mkRat 1 2] (by decide)
    (by decide)

/-- C5 is false of the code: no shape check exists.  With a 1-pixel image
and a 2-score mask the operation succeeds and produces an output image
(the second write lands past the end of the buffer and is dropped, as for
a `Uint8ClampedArray`). -/
theorem c5_shape_mismatch_counterexample :
    exMask.length ≠ exImg.width * exImg.height ∧
    (removeBackground exImg exMask).isSome = true ∧
    (maskComposite exImg exMask).data = [10, 20, 30, 255] := by decide

/-- C5 amended: `removeBackground` performs no mask/image shape check;
for mismatched lengths it still succeeds and returns an image of the
source's dimensions (alpha is set for the indices the mask covers inside
the buffer, writes past the buffer are dropped). -/
theorem c5_mismatch_still_succeeds (img : RasterImage) (mask : List ℚ)
    (_hne : mask.length ≠ img.width * img.height) :
    (removeBackground img mask).isSome = true ∧
    (maskComposite img mask).width = img.width ∧
    (maskComposite img mask).height = img.height :=
  ⟨rfl, rfl, rfl⟩

/-- Witness for the amended C5 at the mismatched pair. -/
theorem c5_mismatch_still_succeeds_witness :
    (removeBackground exImg exMask).isSome = true ∧
    (maskComposite exImg exMask).width = exImg.width ∧
    (maskComposite exImg exMask).height = exImg.height :=
  c5_mismatch_still_succeeds exImg exMask (by decide)

/-- C9: the loop runs over exactly the mask's length and writes only
alpha bytes; with a mask shorter than the pixel count it completes
without error, sets the alpha of pixels `0..m-1` by the formula, and
leaves every other byte — the alpha bytes of pixels `≥ m` and all RGB
bytes — equal to the source's. -/
theorem c9_partial_mask_alpha_only (img : RasterImage) (mask : List ℚ)
    (hlen : mask.length < img.width * img.height) :
    (removeBackground img mask).isSome = true ∧
    (∀ i < mask.length,
        (maskComposite img mask).data[i * 4 + 3]? =
          some (clampByte (jsRound ((1 - mask.getD i 0) * 255)))) ∧
    (∀ j < img.data.length, (∀ i < mask.length, j ≠ i * 4 + 3) →
        (maskComposite img mask).data[j]? = img.data[j]?) := by
  refine ⟨rfl, ?_, ?_⟩
  · intro i hi
    have hiwh : i < img.width * img.height := lt_trans hi hlen
    have hbound : (0 + i) * 4 + 3 < img.data.length := by
      rw [img.size_eq, Nat.zero_add]; omega
    have hhit := applyMask_getElem?_hit mask img.data 0 i hi hbound
    show (applyMask img.data 0 mask)[i * 4 + 3]? = _
    rw [show i * 4 + 3 = (0 + i) * 4 + 3 by omega, hhit, roundAlpha_eq]
  · intro j _ hj
    show (applyMask img.data 0 mask)[j]? = _
    apply applyMask_getElem?_untouched
    intro i hi
    have := hj i hi
    omega

/-- Witness for C9 on a two-pixel image and the one-score mask `[1/2]`:
first alpha becomes 128, all other bytes keep their source values. -/
theorem c9_partial_mask_alpha_only_witness :
    (removeBackground exImgWide [mkRat 1 2]).isSome = true ∧
    (∀ i < ([mkRat 1 2] : List ℚ).length,
        (maskComposite exImgWide [mkRat 1 2]).data[i * 4 + 3]? =
          some (clampByte (jsRound ((1 - ([mkRat 1 2] : List ℚ).getD i 0) * 255)))) ∧
    (∀ j < exImgWide.data.length, (∀ i < ([mkRat 1 2] : List ℚ).length, j ≠ i * 4 + 3) →
        (maskComposite exImgWide [mkRat 1 2]).data[j]? = exImgWide.data[j]?) :=
  c9_partial_mask_alpha_only exImgWide [mkRat 1 2] (by decide)

/-!
Lemmas about the resize policy.
-/

/-- If `a ≤ c * b` with `b` positive then rounding `a / b` stays `≤ c`. -/
theorem roundDiv_le (a b c : ℕ) (hb : 0 < b) (h : a ≤ c * b) : roundDiv a b ≤ c := by
  rw [roundDiv]
  have h2 : 2 * a + b < (c + 1) * (2 * b) := by nlinarith
  have h3 := (Nat.div_lt_iff_lt_mul (by omega : 0 < 2 * b)).mpr h2
  omega

/-- C7: if either dimension exceeds 1024 the output's larger dimension is
exactly 1024 and the other is the remaining input dimension scaled by the
same ratio, rounded to nearest; within the bound, dimensions pass through;
2000 by 1000 maps to 1024 by 512 and 800 by 600 is unchanged. -/
theorem c7_resize_policy (w h : ℕ) :
    ((MAX_IMAGE_DIMENSION < w ∨ MAX_IMAGE_DIMENSION < h) →
      max (resizeDims w h).1 (resizeDims w h).2 = MAX_IMAGE_DIMENSION ∧
      min (resizeDims w h).1 (resizeDims w h).2 =
        roundDiv (min w h * MAX_IMAGE_DIMENSION) (max w h)) ∧
    (w ≤ MAX_IMAGE_DIMENSION → h ≤ MAX_IMAGE_DIMENSION → resizeDims w h = (w, h)) ∧
    resizeDims 2000 1000 = (1024, 512) ∧ resizeDims 800 600 = (800, 600) := by
  refine ⟨?_, ?_, by decide, by decide⟩
  · intro hbig
    rw [resizeDims, if_pos hbig]
    by_cases hwh : h < w
    · have hw : MAX_IMAGE_DIMENSION < w := by
        rcases hbig with h1 | h1
        · exact h1
        · omega
      have hr : roundDiv (h * MAX_IMAGE_DIMENSION) w ≤ MAX_IMAGE_DIMENSION := by
        apply roundDiv_le _ _ _ (by omega)
        calc h * MAX_IMAGE_DIMENSION ≤ w * MAX_IMAGE_DIMENSION :=
              Nat.mul_le_mul_right _ (le_of_lt hwh)
          _ = MAX_IMAGE_DIMENSION * w := Nat.mul_comm _ _
      rw [if_pos hwh]
      constructor
      · exact max_eq_left hr
      · rw [min_eq_right hr, min_eq_right (le_of_lt hwh), max_eq_left (le_of_lt hwh)]
    · have hh : MAX_IMAGE_DIMENSION < h := by
        rcases hbig with h1 | h1
        · omega
        · exact h1
      have hr : roundDiv (w * MAX_IMAGE_DIMENSION) h ≤ MAX_IMAGE_DIMENSION := by
        apply roundDiv_le _ _ _ (by omega)
        calc w * MAX_IMAGE_DIMENSION ≤ h * MAX_IMAGE_DIMENSION :=
              Nat.mul_le_mul_right _ (le_of_not_lt hwh)
          _ = MAX_IMAGE_DIMENSION * h := Nat.mul_comm _ _
      rw [if_neg hwh]
      constructor
      · exact max_eq_right hr
      · rw [min_eq_left hr, min_eq_left (le_of_not_lt hwh), max_eq_right (le_of_not_lt hwh)]
  · intro hw hh
    rw [resizeDims, if_neg (not_or.mpr ⟨not_lt.mpr hw, not_lt.mpr hh⟩)]

/-- Witness for C7 at 2000 by 1000: larger output dimension 1024, smaller
equal to the rounded scale of 1000. -/
theorem c7_resize_policy_witness :
    max (resizeDims 2000 1000).1 (resizeDims 2000 1000).2 = MAX_IMAGE_DIMENSION ∧
    min (resizeDims 2000 1000).1 (resizeDims 2000 1000).2 =
      roundDiv (min 2000 1000 * MAX_IMAGE_DIMENSION) (max 2000 1000) :=
  (c7_resize_policy 2000 1000).1 (Or.inl (by decide))

/-- C10: the dimension mapping is bounded by 1024 in both components and
idempotent: applying it to its own output changes nothing. -/
theorem c10_resize_bounded_idempotent (w h : ℕ) :
    (resizeDims w h).1 ≤ MAX_IMAGE_DIMENSION ∧
    (resizeDims w h).2 ≤ MAX_IMAGE_DIMENSION ∧
    resizeDims (resizeDims w h).1 (resizeDims w h).2 = resizeDims w h := by
  have fixed : ∀ a b : ℕ, a ≤ MAX_IMAGE_DIMENSION → b ≤ MAX_IMAGE_DIMENSION →
      resizeDims a b = (a, b) := by
    intro a b ha hb
    rw [resizeDims, if_neg (not_or.mpr ⟨not_lt.mpr ha, not_lt.mpr hb⟩)]
  have hbounds : (resizeDims w h).1 ≤ MAX_IMAGE_DIMENSION ∧
      (resizeDims w h).2 ≤ MAX_IMAGE_DIMENSION := by
    by_cases hbig : MAX_IMAGE_DIMENSION < w ∨ MAX_IMAGE_DIMENSION < h
    · rw [resizeDims, if_pos hbig]
      by_cases hwh : h < w
      · have hw : MAX_IMAGE_DIMENSION < w := by
          rcases hbig with h1 | h1
          · exact h1
          · omega
        rw [if_pos hwh]
        refine ⟨le_refl _, ?_⟩
        apply roundDiv_le _ _ _ (by omega)
        calc h * MAX_IMAGE_DIMENSION ≤ w * MAX_IMAGE_DIMENSION :=
              Nat.mul_le_mul_right _ (le_of_lt hwh)
          _ = MAX_IMAGE_DIMENSION * w := Nat.mul_comm _ _
      · have hh : MAX_IMAGE_DIMENSION < h := by
          rcases hbig with h1 | h1
          · omega
          · exact h1
        rw [if_neg hwh]
        refine ⟨?_, le_refl _⟩
        apply roundDiv_le _ _ _ (by omega)
        calc w * MAX_IMAGE_DIMENSION ≤ h * MAX_IMAGE_DIMENSION :=
              Nat.mul_le_mul_right _ (le_of_not_lt hwh)
          _ = MAX_IMAGE_DIMENSION * h := Nat.mul_comm _ _
    · rw [resizeDims, if_neg hbig]
      rw [not_or, not_lt, not_lt] at hbig
      exact hbig
  exact ⟨hbounds.1, hbounds.2, fixed _ _ hbounds.1 hbounds.2⟩
